import Mathlib

/-!
Shallow embedding of the Block-Tac-Toe program (`ttt.py`): the `Board`
class (grid of characters, obstacle placement, legal-move cache, win
detection), the `HumanPlayer` move handler, and the event-handling logic
of `Game.run`.  Randomness (`random.randrange`) is made explicit as a
stream of candidate coordinates; the rejection-sampling loop of
`_place_obstacles` consumes the stream and returns `none` when the stream
is exhausted before all obstacles are placed (modelling a run of the loop
that has not yet terminated).
-/

namespace TTT

/-- Cell access `self._cells[i][j]`.  All accesses in the source are
guarded by bounds checks, so the default values are never reached on
well-formed boards. -/
def getCell (cells : List (List Char)) (i j : Nat) : Char :=
  (cells.getD i []).getD j '.'

/-- Cell update `self._cells[i][j] = c`. -/
def setCell (cells : List (List Char)) (i j : Nat) (c : Char) : List (List Char) :=
  cells.set i ((cells.getD i []).set j c)

/-- `self._cells = [['.' for _ in range(cols)] for _ in range(rows)]` -/
def initCells (rows cols : Nat) : List (List Char) :=
  List.replicate rows (List.replicate cols '.')

/-- The Board state: configuration parameters, the character grid
(`'.'` empty, `'#'` obstacle, any other character a placed mark), and
the cached legal-move set `self._legal`.  Coordinates in the legal set
are integers because Python tuple keys coming from floor division may be
negative. -/
structure Board where
  rows : Nat
  cols : Nat
  win_len : Nat
  num_obstacles : Nat
  cells : List (List Char)
  legal : Finset (Int × Int)
deriving DecidableEq

/-- `Board._place_obstacles`: rejection sampling.  The `stream` lists the
successive results of `(random.randrange(rows), random.randrange(cols))`;
the counter is the number of obstacles still to place (`num_obstacles -
placed`).  Returns `none` when the stream runs out first. -/
def place_obstacles : List (Nat × Nat) → List (List Char) → Nat → Option (List (List Char))
  | _, cells, 0 => some cells
  | [], _, _ + 1 => none
  | (i, j) :: rest, cells, n + 1 =>
    if getCell cells i j = '.' then
      place_obstacles rest (setCell cells i j '#') n
    else
      place_obstacles rest cells (n + 1)

/-- The cached legal-move set: `{(i, j) for i in range(rows) for j in
range(cols) if cells[i][j] == '.'}`. -/
def legal_of (rows cols : Nat) (cells : List (List Char)) : Finset (Int × Int) :=
  ((Finset.range rows ×ˢ Finset.range cols).filter
    (fun p => getCell cells p.1 p.2 = '.')).image
    (fun p => ((p.1 : Int), (p.2 : Int)))

/-- `Board.__init__` / `Board._init_board`: empty grid, obstacles,
legal-move cache.  The constructor performs no parameter validation. -/
def Board.init_board (rows cols win_len num_obstacles : Nat)
    (stream : List (Nat × Nat)) : Option Board :=
  (place_obstacles stream (initCells rows cols) num_obstacles).map
    (fun cells =>
      { rows := rows, cols := cols, win_len := win_len,
        num_obstacles := num_obstacles, cells := cells,
        legal := legal_of rows cols cells })

/-- `Board.reset`: completely reinitialize board and obstacles with the
stored configuration. -/
def Board.reset (b : Board) (stream : List (Nat × Nat)) : Option Board :=
  Board.init_board b.rows b.cols b.win_len b.num_obstacles stream

/-- `Board.is_legal_move`: `(i, j) in self._legal`. -/
def Board.is_legal_move (b : Board) (i j : Int) : Bool :=
  decide ((i, j) ∈ b.legal)

/-- `Board.place_mark`: on a legal cell, write the symbol and drop the
cell from the legal set; otherwise leave everything unchanged.  The
membership test guards the grid access, so indices are only converted to
list positions when they are known to be legal. -/
def Board.place_mark (b : Board) (i j : Int) (sym : Char) : Board × Bool :=
  if (i, j) ∈ b.legal then
    ({ b with cells := setCell b.cells i.toNat j.toNat sym,
              legal := b.legal.erase (i, j) }, true)
  else
    (b, false)

/-- `Board.is_full`: `not self._legal`. -/
def Board.is_full (b : Board) : Bool :=
  decide (b.legal = ∅)

/-- The four scan directions of `check_winner`. -/
def dirs : List (Int × Int) := [(1, 0), (0, 1), (1, 1), (1, -1)]

/-- The condition of the `while` loop in `check_winner`: `(x, y)` is in
bounds and the cell there holds `sym`. -/
def good_cell (cells : List (List Char)) (rows cols : Nat) (sym : Char)
    (x y : Int) : Prop :=
  0 ≤ x ∧ x < (rows : Int) ∧ 0 ≤ y ∧ y < (cols : Int) ∧
    getCell cells x.toNat y.toNat = sym

instance (cells rows cols sym x y) :
    Decidable (good_cell cells rows cols sym x y) := by
  unfold good_cell
  infer_instance

/-- The inner `while` loop of `check_winner`: starting from `(x, y)` with
the current run length `count`, keep stepping by `(di, dj)` while the
cell is in bounds and holds `sym`, returning `true` as soon as the
incremented count reaches `win_len`.  Each direction has a positive step
in at least one coordinate, so the walk leaves the grid within
`rows + cols` steps; that quantity is used as fuel. -/
def extend_run (cells : List (List Char)) (rows cols win_len : Nat) (sym : Char)
    (di dj : Int) : Nat → Int → Int → Nat → Bool
  | 0, _, _, _ => false
  | fuel + 1, x, y, count =>
    if good_cell cells rows cols sym x y then
      if win_len ≤ count + 1 then true
      else extend_run cells rows cols win_len sym di dj fuel (x + di) (y + dj) (count + 1)
    else false

/-- `Board.check_winner`: scan every cell; from each cell holding `sym`
extend a run (initial count 1) in each of the four directions. -/
def Board.check_winner (b : Board) (sym : Char) : Bool :=
  (List.range b.rows).any fun i =>
    (List.range b.cols).any fun j =>
      decide (getCell b.cells i j = sym) &&
      dirs.any fun d =>
        extend_run b.cells b.rows b.cols b.win_len sym d.1 d.2
          (b.rows + b.cols) ((i : Int) + d.1) ((j : Int) + d.2) 1

/-- `HumanPlayer.make_move`: floor-divide the pointer position into grid
indices (`x` gives the column, `y` the row) and immediately attempt
`place_mark` with the player's symbol, returning the updated board and
the success flag. -/
def HumanPlayer.make_move (b : Board) (sym : Char) (pos : Int × Int)
    (cell_size margin : Int) : Board × Bool :=
  let j := Int.fdiv (pos.1 - margin) (cell_size + margin)
  let i := Int.fdiv (pos.2 - margin) (cell_size + margin)
  b.place_mark i j sym

/-- The controller state of `Game`: board, player symbols (the source
builds `[HumanPlayer('X'), HumanPlayer('O')]`), active index `_turn`,
the `_game_over` flag and `_winner`, plus the fixed geometry constants. -/
structure Game where
  board : Board
  players : List Char
  turn : Nat
  game_over : Bool
  winner : Option Char
  cell_size : Int
  margin : Int
deriving DecidableEq

/-- The `KEYDOWN` branch of `Game.run` for the restart key: only acted
on when `_game_over`; resets the board (fresh obstacle stream), the turn
and the winner.  `none` models a reset whose sampling loop does not
terminate. -/
def Game.handle_restart (g : Game) (stream : List (Nat × Nat)) : Option Game :=
  if g.game_over then
    (g.board.reset stream).map fun b =>
      { g with board := b, turn := 0, game_over := false, winner := none }
  else
    some g

/-- The `MOUSEBUTTONDOWN` branch of `Game.run`: only acted on when not
`_game_over`; the active player attempts the move, and on success the
controller checks winner, then draw, otherwise flips the turn. -/
def Game.handle_click (g : Game) (pos : Int × Int) : Game :=
  if g.game_over then g
  else
    let sym := g.players.getD g.turn 'X'
    let res := HumanPlayer.make_move g.board sym pos g.cell_size g.margin
    let b := res.1
    if res.2 then
      if b.check_winner sym then
        { g with board := b, game_over := true, winner := some sym }
      else if b.is_full then
        { g with board := b, game_over := true, winner := none }
      else
        { g with board := b, turn := 1 - g.turn }
    else
      { g with board := b }

/-! ## Spec-side notions -/

/-- Bounds-checked cell lookup, used to phrase spec-level statements about
runs: `some` of the cell contents when `(x, y)` is on the grid, else
`none`. -/
def cellAt (b : Board) (x y : Int) : Option Char :=
  if 0 ≤ x ∧ x < (b.rows : Int) ∧ 0 ≤ y ∧ y < (b.cols : Int) then
    some (getCell b.cells x.toNat y.toNat)
  else none

/-- Modelled from the spec: "there exists an axis-aligned (horizontal or
vertical) or diagonal run of at least `winLength` consecutive cells all
holding `Mark(symbol)`" — here a run of `len` consecutive `sym` cells in
one of the four scan directions. -/
def has_run (b : Board) (sym : Char) (len : Nat) : Prop :=
  ∃ d ∈ dirs, ∃ i j : Int,
    ∀ k : Nat, k < len → cellAt b (i + k * d.1) (j + k * d.2) = some sym

/-- The set of in-bounds coordinates, as integer pairs. -/
def boundsSet (rows cols : Nat) : Finset (Int × Int) :=
  (Finset.range rows ×ˢ Finset.range cols).image
    (fun p => ((p.1 : Int), (p.2 : Int)))

/-- Well-formedness of a board state: the grid has `rows` rows of `cols`
cells each, and the legal-move cache contains exactly the in-bounds
coordinates whose cell is `'.'`. -/
def Inv (b : Board) : Prop :=
  b.cells.length = b.rows ∧
  (∀ row ∈ b.cells, row.length = b.cols) ∧
  b.legal ⊆ boundsSet b.rows b.cols ∧
  ∀ i ∈ Finset.range b.rows, ∀ j ∈ Finset.range b.cols,
    (((i : Int), (j : Int)) ∈ b.legal ↔ getCell b.cells i j = '.')

instance (b : Board) : Decidable (Inv b) := by
  unfold Inv
  infer_instance

/-- Number of in-bounds cells whose contents satisfy `p`. -/
def count_cells (rows cols : Nat) (cells : List (List Char))
    (p : Char → Prop) [DecidablePred p] : Nat :=
  ((Finset.range rows ×ˢ Finset.range cols).filter
    (fun q => p (getCell cells q.1 q.2))).card

/-! ## Grid access lemmas -/

theorem length_setCell (cells : List (List Char)) (i j : Nat) (c : Char) :
    (setCell cells i j c).length = cells.length := by
  simp [setCell]

theorem getD_set_self {α : Type} (l : List α) {i : Nat} (a d : α)
    (h : i < l.length) : (l.set i a).getD i d = a := by
  simp [List.getD_eq_getElem?_getD, List.getElem?_set_self, h]

theorem getD_set_ne {α : Type} (l : List α) {i k : Nat} (a d : α)
    (h : i ≠ k) : (l.set i a).getD k d = l.getD k d := by
  simp [List.getD_eq_getElem?_getD, List.getElem?_set_ne h]

theorem getCell_setCell_self (cells : List (List Char)) {i j : Nat} (c : Char)
    (hi : i < cells.length) (hj : j < (cells.getD i []).length) :
    getCell (setCell cells i j c) i j = c := by
  unfold getCell setCell
  rw [getD_set_self _ _ _ hi, getD_set_self _ _ _ hj]

theorem getCell_setCell_ne (cells : List (List Char)) {i j i' j' : Nat} (c : Char)
    (h : (i, j) ≠ (i', j')) :
    getCell (setCell cells i j c) i' j' = getCell cells i' j' := by
  unfold getCell setCell
  by_cases hii : i = i'
  · subst hii
    have hjj : j ≠ j' := by
      intro hc
      exact h (by rw [hc])
    by_cases hlen : i < cells.length
    · rw [getD_set_self _ _ _ hlen, getD_set_ne _ _ _ hjj]
    · rw [List.set_eq_of_length_le (by omega)]
  · rw [getD_set_ne _ _ _ hii]

theorem rowlen_setCell {cells : List (List Char)} {cols : Nat} (i j : Nat) (c : Char)
    (h : ∀ row ∈ cells, row.length = cols) :
    ∀ row ∈ setCell cells i j c, row.length = cols := by
  intro row hrow
  by_cases hlen : i < cells.length
  · rcases List.mem_or_eq_of_mem_set hrow with hmem | rfl
    · exact h row hmem
    · rw [List.length_set]
      have : cells.getD i [] = cells[i] := by
        rw [List.getD_eq_getElem?_getD, List.getElem?_eq_getElem hlen]
        rfl
      rw [this]
      exact h _ (List.getElem_mem hlen)
  · rw [setCell, List.set_eq_of_length_le (by omega)] at hrow
    exact h row hrow

theorem mem_boundsSet {rows cols : Nat} {p : Int × Int} :
    p ∈ boundsSet rows cols ↔
      0 ≤ p.1 ∧ p.1 < (rows : Int) ∧ 0 ≤ p.2 ∧ p.2 < (cols : Int) := by
  unfold boundsSet
  simp only [Finset.mem_image, Finset.mem_product, Finset.mem_range]
  constructor
  · rintro ⟨⟨a, c⟩, ⟨ha, hc⟩, rfl⟩
    dsimp only
    refine ⟨by positivity, by exact_mod_cast ha, by positivity, by exact_mod_cast hc⟩
  · rintro ⟨h1, h2, h3, h4⟩
    refine ⟨(p.1.toNat, p.2.toNat), ⟨by omega, by omega⟩, ?_⟩
    simp [Int.toNat_of_nonneg h1, Int.toNat_of_nonneg h3]

theorem mem_legal_of {rows cols : Nat} {cells : List (List Char)} {p : Int × Int} :
    p ∈ legal_of rows cols cells ↔
      0 ≤ p.1 ∧ p.1 < (rows : Int) ∧ 0 ≤ p.2 ∧ p.2 < (cols : Int) ∧
        getCell cells p.1.toNat p.2.toNat = '.' := by
  unfold legal_of
  simp only [Finset.mem_image, Finset.mem_filter, Finset.mem_product, Finset.mem_range]
  constructor
  · rintro ⟨⟨a, c⟩, ⟨⟨ha, hc⟩, hdot⟩, rfl⟩
    dsimp only
    refine ⟨by positivity, by exact_mod_cast ha, by positivity, by exact_mod_cast hc, ?_⟩
    simpa using hdot
  · rintro ⟨h1, h2, h3, h4, h5⟩
    refine ⟨(p.1.toNat, p.2.toNat), ⟨⟨by omega, by omega⟩, by simpa using h5⟩, ?_⟩
    simp [Int.toNat_of_nonneg h1, Int.toNat_of_nonneg h3]

theorem getD_row_length {cells : List (List Char)} {rows cols i : Nat}
    (hlen : cells.length = rows) (hrows : ∀ row ∈ cells, row.length = cols)
    (hi : i < rows) : (cells.getD i []).length = cols := by
  have hl : i < cells.length := by omega
  have : cells.getD i [] = cells[i] := by
    rw [List.getD_eq_getElem?_getD, List.getElem?_eq_getElem hl]
    rfl
  rw [this]
  exact hrows _ (List.getElem_mem hl)

/-- Writing one in-bounds cell moves one unit of count between the class
of the old contents and the class of the new contents. -/
theorem count_cells_setCell {rows cols : Nat} {cells : List (List Char)}
    (p : Char → Prop) [DecidablePred p] {i j : Nat} (c : Char)
    (hlen : cells.length = rows) (hrows : ∀ row ∈ cells, row.length = cols)
    (hi : i < rows) (hj : j < cols) :
    count_cells rows cols (setCell cells i j c) p
        + (if p (getCell cells i j) then 1 else 0)
      = count_cells rows cols cells p + (if p c then 1 else 0) := by
  unfold count_cells
  have hmem : (i, j) ∈ Finset.range rows ×ˢ Finset.range cols := by
    simp [Finset.mem_product, hi, hj]
  rw [Finset.card_filter, Finset.card_filter,
    Finset.sum_eq_sum_diff_singleton_add hmem, Finset.sum_eq_sum_diff_singleton_add hmem]
  have hsame :
      ∑ q ∈ (Finset.range rows ×ˢ Finset.range cols) \ {(i, j)},
        (if p (getCell (setCell cells i j c) q.1 q.2) then 1 else 0)
      = ∑ q ∈ (Finset.range rows ×ˢ Finset.range cols) \ {(i, j)},
        (if p (getCell cells q.1 q.2) then 1 else 0) := by
    refine Finset.sum_congr rfl ?_
    intro q hq
    have hne : (i, j) ≠ (q.1, q.2) := by
      simp only [Finset.mem_sdiff, Finset.mem_singleton] at hq
      intro hc
      exact hq.2 (by cases q; simpa using hc.symm)
    rw [getCell_setCell_ne _ _ hne]
  have hset : getCell (setCell cells i j c) i j = c :=
    getCell_setCell_self _ _ (by omega) (by rw [getD_row_length hlen hrows hi]; omega)
  rw [hsame]
  dsimp only
  rw [hset]
  omega

/-- Full behaviour of the obstacle-placement loop: dimensions are
preserved, the obstacle count grows by exactly the number of obstacles
requested, and every cell is either untouched or an obstacle written on
a previously empty cell. -/
theorem place_obstacles_spec {rows cols : Nat} :
    ∀ (stream : List (Nat × Nat)) (cells : List (List Char)) (n : Nat)
      (out : List (List Char)),
      (∀ q ∈ stream, q.1 < rows ∧ q.2 < cols) →
      cells.length = rows → (∀ row ∈ cells, row.length = cols) →
      place_obstacles stream cells n = some out →
      out.length = rows ∧ (∀ row ∈ out, row.length = cols) ∧
      count_cells rows cols out (· = '#')
        = count_cells rows cols cells (· = '#') + n ∧
      (∀ i j, i < rows → j < cols →
        getCell out i j = getCell cells i j ∨
          (getCell out i j = '#' ∧ getCell cells i j = '.')) := by
  intro stream
  induction stream with
  | nil =>
    intro cells n out _ hlen hrows hout
    cases n with
    | zero =>
      simp only [place_obstacles, Option.some.injEq] at hout
      subst hout
      exact ⟨hlen, hrows, by omega, fun i j _ _ => Or.inl rfl⟩
    | succ m => simp [place_obstacles] at hout
  | cons q rest ih =>
    intro cells n out hstream hlen hrows hout
    obtain ⟨hq1, hq2⟩ := hstream q (List.mem_cons_self q rest)
    have hrest : ∀ r ∈ rest, r.1 < rows ∧ r.2 < cols :=
      fun r hr => hstream r (List.mem_cons_of_mem q hr)
    cases n with
    | zero =>
      simp only [place_obstacles, Option.some.injEq] at hout
      subst hout
      exact ⟨hlen, hrows, by omega, fun i j _ _ => Or.inl rfl⟩
    | succ m =>
      obtain ⟨qi, qj⟩ := q
      simp only [place_obstacles] at hout
      by_cases hdot : getCell cells qi qj = '.'
      · rw [if_pos hdot] at hout
        obtain ⟨h1, h2, h3, h4⟩ := ih (setCell cells qi qj '#') m out hrest
          (by rw [length_setCell]; exact hlen) (rowlen_setCell _ _ _ hrows) hout
        have hcnt := @count_cells_setCell rows cols cells (· = '#') _ qi qj '#'
          hlen hrows hq1 hq2
        rw [hdot] at hcnt
        beta_reduce at hcnt
        rw [if_neg (show ¬('.' : Char) = '#' by decide), if_pos rfl, add_zero] at hcnt
        refine ⟨h1, h2, by omega, ?_⟩
        intro i j hi hj
        by_cases hij : (qi, qj) = (i, j)
        · obtain ⟨rfl, rfl⟩ := Prod.mk.injEq .. ▸ hij
          have hset : getCell (setCell cells qi qj '#') qi qj = '#' :=
            getCell_setCell_self _ _ (by omega)
              (by rw [getD_row_length hlen hrows hq1]; omega)
          rcases h4 qi qj hi hj with h | h
          · exact Or.inr ⟨by rw [h, hset], hdot⟩
          · exact Or.inr ⟨h.1, hdot⟩
        · have hkeep : getCell (setCell cells qi qj '#') i j = getCell cells i j :=
            getCell_setCell_ne _ _ hij
          rcases h4 i j hi hj with h | h
          · exact Or.inl (by rw [h, hkeep])
          · exact Or.inr ⟨h.1, by rw [← hkeep]; exact h.2⟩
      · rw [if_neg hdot] at hout
        exact ih cells (m + 1) out hrest hlen hrows hout

theorem length_initCells (rows cols : Nat) : (initCells rows cols).length = rows := by
  simp [initCells]

theorem rowlen_initCells (rows cols : Nat) :
    ∀ row ∈ initCells rows cols, row.length = cols := by
  intro row hrow
  simp only [initCells] at hrow
  rw [List.eq_of_mem_replicate hrow]
  simp

theorem getCell_initCells {rows cols i j : Nat} (hi : i < rows) (hj : j < cols) :
    getCell (initCells rows cols) i j = '.' := by
  simp [initCells, getCell, List.getD_eq_getElem?_getD, List.getElem?_replicate, hi, hj]

theorem count_initCells_obstacle (rows cols : Nat) :
    count_cells rows cols (initCells rows cols) (· = '#') = 0 := by
  unfold count_cells
  rw [Finset.card_eq_zero, Finset.filter_eq_empty_iff]
  intro q hq
  simp only [Finset.mem_product, Finset.mem_range] at hq
  beta_reduce
  rw [getCell_initCells hq.1 hq.2]
  decide

/-- A board whose legal set is the freshly computed cache is well-formed. -/
theorem Inv_of_legal_of {rows cols wl no : Nat} {cells : List (List Char)}
    (hlen : cells.length = rows) (hrows : ∀ row ∈ cells, row.length = cols) :
    Inv { rows := rows, cols := cols, win_len := wl, num_obstacles := no,
          cells := cells, legal := legal_of rows cols cells } := by
  refine ⟨hlen, hrows, ?_, ?_⟩
  · intro p hp
    have hm := mem_legal_of.mp hp
    exact mem_boundsSet.mpr ⟨hm.1, hm.2.1, hm.2.2.1, hm.2.2.2.1⟩
  · intro i hi j hj
    simp only [Finset.mem_range] at hi hj
    rw [mem_legal_of]
    dsimp only
    constructor
    · rintro ⟨-, -, -, -, h5⟩
      simpa using h5
    · intro h
      exact ⟨by positivity, by exact_mod_cast hi, by positivity, by exact_mod_cast hj,
        by simpa using h⟩

/-- Everything `Board.__init__` guarantees when the sampling loop
terminates: stored parameters, well-formedness, exactly `num_obstacles`
obstacle cells, every other cell empty, and the cached legal set. -/
theorem init_board_spec {rows cols wl no : Nat} {stream : List (Nat × Nat)} {b : Board}
    (hstream : ∀ q ∈ stream, q.1 < rows ∧ q.2 < cols)
    (h : Board.init_board rows cols wl no stream = some b) :
    b.rows = rows ∧ b.cols = cols ∧ b.win_len = wl ∧ b.num_obstacles = no ∧
    Inv b ∧ count_cells rows cols b.cells (· = '#') = no ∧
    (∀ i j, i < rows → j < cols →
      getCell b.cells i j = '#' ∨ getCell b.cells i j = '.') := by
  rw [Board.init_board, Option.map_eq_some'] at h
  obtain ⟨cs, hpo, hb⟩ := h
  obtain ⟨h1, h2, h3, h4⟩ := place_obstacles_spec stream (initCells rows cols) no cs
    hstream (length_initCells rows cols) (rowlen_initCells rows cols) hpo
  subst hb
  refine ⟨rfl, rfl, rfl, rfl, Inv_of_legal_of h1 h2, ?_, ?_⟩
  · rw [h3, count_initCells_obstacle]
    omega
  · intro i j hi hj
    rcases h4 i j hi hj with h | h
    · rw [h, getCell_initCells hi hj]
      exact Or.inr rfl
    · exact Or.inl h.1

theorem cast_pair_injective :
    Function.Injective (fun p : Nat × Nat => ((p.1 : Int), (p.2 : Int))) := by
  rintro ⟨a, b⟩ ⟨c, d⟩ h
  simp only [Prod.mk.injEq, Nat.cast_inj] at h
  simp [h.1, h.2]

theorem legal_of_card (rows cols : Nat) (cells : List (List Char)) :
    (legal_of rows cols cells).card = count_cells rows cols cells (· = '.') := by
  unfold legal_of count_cells
  rw [Finset.card_image_of_injective _ cast_pair_injective]

/-- The in-bounds cells split into empty, obstacle and mark cells. -/
theorem count_cells_partition (rows cols : Nat) (cells : List (List Char)) :
    count_cells rows cols cells (· = '.') + count_cells rows cols cells (· = '#')
      + count_cells rows cols cells (fun c => c ≠ '.' ∧ c ≠ '#') = rows * cols := by
  unfold count_cells
  rw [Finset.card_filter, Finset.card_filter, Finset.card_filter,
    ← Finset.sum_add_distrib, ← Finset.sum_add_distrib]
  have h3 : (Finset.range rows ×ˢ Finset.range cols).card = rows * cols := by
    rw [Finset.card_product, Finset.card_range, Finset.card_range]
  rw [← h3, Finset.card_eq_sum_ones]
  refine Finset.sum_congr rfl ?_
  intro q _
  by_cases ha : getCell cells q.1 q.2 = '.'
  · have hb : ¬getCell cells q.1 q.2 = '#' := by
      rw [ha]
      decide
    simp [ha, hb]
  · by_cases hb : getCell cells q.1 q.2 = '#'
    · simp [ha, hb]
    · simp [ha, hb]

/-- On a well-formed board, the legal-move cache is characterised on all
integer pairs: a pair is legal iff it is in bounds and its cell is empty. -/
theorem Inv.mem_legal {b : Board} (h : Inv b) (p : Int × Int) :
    p ∈ b.legal ↔
      0 ≤ p.1 ∧ p.1 < (b.rows : Int) ∧ 0 ≤ p.2 ∧ p.2 < (b.cols : Int) ∧
        getCell b.cells p.1.toNat p.2.toNat = '.' := by
  obtain ⟨-, -, hsub, hchar⟩ := h
  constructor
  · intro hp
    have hb := mem_boundsSet.mp (hsub hp)
    refine ⟨hb.1, hb.2.1, hb.2.2.1, hb.2.2.2, ?_⟩
    have := (hchar p.1.toNat (by simp only [Finset.mem_range]; omega)
      p.2.toNat (by simp only [Finset.mem_range]; omega)).mp
    rw [Int.toNat_of_nonneg hb.1, Int.toNat_of_nonneg hb.2.2.1] at this
    exact this (by simpa using hp)
  · rintro ⟨h1, h2, h3, h4, h5⟩
    have := (hchar p.1.toNat (by simp only [Finset.mem_range]; omega)
      p.2.toNat (by simp only [Finset.mem_range]; omega)).mpr h5
    rw [Int.toNat_of_nonneg h1, Int.toNat_of_nonneg h3] at this
    simpa using this

theorem Inv.legal_eq {b : Board} (h : Inv b) :
    b.legal = legal_of b.rows b.cols b.cells := by
  ext p
  rw [h.mem_legal, mem_legal_of]

/-- Counting form of the open-set size invariant. -/
theorem Inv.legal_card {b : Board} (h : Inv b) :
    b.legal.card + (count_cells b.rows b.cols b.cells (· = '#')
      + count_cells b.rows b.cols b.cells (fun c => c ≠ '.' ∧ c ≠ '#'))
      = b.rows * b.cols := by
  rw [h.legal_eq, legal_of_card]
  have := count_cells_partition b.rows b.cols b.cells
  omega

theorem place_mark_legal {b : Board} {i j : Int} (sym : Char)
    (h : (i, j) ∈ b.legal) :
    b.place_mark i j sym =
      ({ b with cells := setCell b.cells i.toNat j.toNat sym,
                legal := b.legal.erase (i, j) }, true) := by
  rw [Board.place_mark, if_pos h]

theorem place_mark_illegal {b : Board} {i j : Int} (sym : Char)
    (h : (i, j) ∉ b.legal) : b.place_mark i j sym = (b, false) := by
  rw [Board.place_mark, if_neg h]

theorem place_mark_fst_of_failed {b : Board} {i j : Int} {sym : Char}
    (h : (b.place_mark i j sym).2 = false) : (b.place_mark i j sym).1 = b := by
  by_cases hm : (i, j) ∈ b.legal
  · rw [place_mark_legal sym hm] at h
    simp at h
  · rw [place_mark_illegal sym hm]

/-- `place_mark` preserves well-formedness: the written symbol is not the
empty-cell character, so the updated grid still matches the shrunken
legal set. -/
theorem Inv_place_mark {b : Board} (h : Inv b) (i j : Int) (sym : Char)
    (hsym : sym ≠ '.') : Inv (b.place_mark i j sym).1 := by
  by_cases hm : (i, j) ∈ b.legal
  · have hc := (h.mem_legal (i, j)).mp hm
    obtain ⟨hi0, hi1, hj0, hj1, hdot⟩ := hc
    obtain ⟨hlen, hrows, hsub, hchar⟩ := h
    rw [place_mark_legal sym hm]
    have hinat : i.toNat < b.rows := by omega
    have hjnat : j.toNat < b.cols := by omega
    refine ⟨?_, ?_, ?_, ?_⟩
    · rw [length_setCell]
      exact hlen
    · exact rowlen_setCell _ _ _ hrows
    · intro p hp
      exact hsub (Finset.erase_subset _ _ hp)
    · intro a ha c hcc
      simp only [Finset.mem_range] at ha hcc
      rw [Finset.mem_erase]
      by_cases heq : a = i.toNat ∧ c = j.toNat
      · obtain ⟨rfl, rfl⟩ := heq
        have hpair : ((i.toNat : Int), (j.toNat : Int)) = (i, j) := by
          rw [Int.toNat_of_nonneg hi0, Int.toNat_of_nonneg hj0]
        have hset : getCell (setCell b.cells i.toNat j.toNat sym) i.toNat j.toNat = sym :=
          getCell_setCell_self _ _ (by omega)
            (by rw [getD_row_length hlen hrows hinat]; omega)
        constructor
        · intro hx
          exact absurd hpair hx.1
        · intro hx
          rw [hset] at hx
          exact absurd hx hsym
      · have hne : (i.toNat, j.toNat) ≠ (a, c) := by
          intro hcon
          rw [Prod.mk.injEq] at hcon
          exact heq ⟨hcon.1.symm, hcon.2.symm⟩
        have hkeep : getCell (setCell b.cells i.toNat j.toNat sym) a c
            = getCell b.cells a c := getCell_setCell_ne _ _ hne
        rw [hkeep]
        have hch := hchar a (Finset.mem_range.mpr ha) c (Finset.mem_range.mpr hcc)
        constructor
        · intro hx
          exact hch.mp hx.2
        · intro hx
          refine ⟨?_, hch.mpr hx⟩
          intro hcon
          rw [Prod.mk.injEq] at hcon
          obtain ⟨hc1, hc2⟩ := hcon
          exact heq ⟨by omega, by omega⟩
  · rw [place_mark_illegal sym hm]
    exact h

/-! ## Win detection -/

theorem cellAt_eq_some {b : Board} {x y : Int} {sym : Char} :
    cellAt b x y = some sym ↔ good_cell b.cells b.rows b.cols sym x y := by
  unfold cellAt good_cell
  by_cases h : 0 ≤ x ∧ x < (b.rows : Int) ∧ 0 ≤ y ∧ y < (b.cols : Int)
  · rw [if_pos h]
    simp only [Option.some.injEq]
    constructor
    · intro hx
      exact ⟨h.1, h.2.1, h.2.2.1, h.2.2.2, hx⟩
    · intro hx
      exact hx.2.2.2.2
  · rw [if_neg h]
    constructor
    · intro hx
      exact absurd hx (by simp)
    · intro hx
      exact absurd ⟨hx.1, hx.2.1, hx.2.2.1, hx.2.2.2.1⟩ h

/-- Exact characterisation of the run-extension loop: it returns `true`
iff the fuel suffices and the next `max (win_len - count) 1` cells along
the direction all hold `sym` (the count is checked only after the first
extension step, hence the `max` with 1). -/
theorem extend_run_iff (cells : List (List Char)) (rows cols win_len : Nat)
    (sym : Char) (di dj : Int) :
    ∀ (fuel : Nat) (x y : Int) (count : Nat),
      extend_run cells rows cols win_len sym di dj fuel x y count = true ↔
        (max (win_len - count) 1 ≤ fuel ∧
          ∀ t : Nat, t < max (win_len - count) 1 →
            good_cell cells rows cols sym (x + t * di) (y + t * dj)) := by
  intro fuel
  induction fuel with
  | zero =>
    intro x y count
    simp only [extend_run, Bool.false_eq_true, false_iff]
    intro hcon
    omega
  | succ m ih =>
    intro x y count
    simp only [extend_run]
    by_cases hg : good_cell cells rows cols sym x y
    · rw [if_pos hg]
      by_cases hw : win_len ≤ count + 1
      · rw [if_pos hw]
        have hmax : max (win_len - count) 1 = 1 := by omega
        rw [hmax]
        simp only [Nat.lt_one_iff, true_iff]
        refine ⟨by omega, ?_⟩
        intro t ht
        subst ht
        simpa using hg
      · rw [if_neg hw]
        rw [ih (x + di) (y + dj) (count + 1)]
        have hm1 : max (win_len - (count + 1)) 1 = win_len - count - 1 := by omega
        have hm2 : max (win_len - count) 1 = win_len - count := by omega
        rw [hm1, hm2]
        constructor
        · rintro ⟨hfuel, hall⟩
          refine ⟨by omega, ?_⟩
          intro t ht
          cases t with
          | zero => simpa using hg
          | succ s =>
            have hs := hall s (by omega)
            have e1 : x + di + (s : Int) * di = x + ((s + 1 : Nat) : Int) * di := by
              push_cast
              ring
            have e2 : y + dj + (s : Int) * dj = y + ((s + 1 : Nat) : Int) * dj := by
              push_cast
              ring
            rw [e1, e2] at hs
            exact hs
        · rintro ⟨hfuel, hall⟩
          refine ⟨by omega, ?_⟩
          intro t ht
          have hs := hall (t + 1) (by omega)
          have e1 : x + ((t + 1 : Nat) : Int) * di = x + di + (t : Int) * di := by
            push_cast
            ring
          have e2 : y + ((t + 1 : Nat) : Int) * dj = y + dj + (t : Int) * dj := by
            push_cast
            ring
          rw [e1, e2] at hs
          exact hs
    · rw [if_neg hg]
      simp only [Bool.false_eq_true, false_iff]
      rintro ⟨hfuel, hall⟩
      have h0 := hall 0 (by omega)
      simp only [Nat.cast_zero, zero_mul, add_zero] at h0
      exact hg h0

/-- What `check_winner` actually detects: a run of `max win_len 2`
consecutive `sym` cells (the origin plus at least one extension step,
since the loop tests the count only after extending). -/
theorem check_winner_iff_run (b : Board) (sym : Char) :
    b.check_winner sym = true ↔ has_run b sym (max b.win_len 2) := by
  unfold Board.check_winner has_run
  simp only [List.any_eq_true, List.mem_range, Bool.and_eq_true, decide_eq_true_eq]
  constructor
  · rintro ⟨i, hi, j, hj, horig, d, hd, hext⟩
    rw [extend_run_iff] at hext
    obtain ⟨-, hall⟩ := hext
    refine ⟨d, hd, (i : Int), (j : Int), ?_⟩
    intro k hk
    rw [cellAt_eq_some]
    cases k with
    | zero =>
      simp only [Nat.cast_zero, zero_mul, add_zero]
      exact ⟨by positivity, by exact_mod_cast hi, by positivity, by exact_mod_cast hj, horig⟩
    | succ t =>
      have ht : t < max (b.win_len - 1) 1 := by omega
      have hs := hall t ht
      have e1 : (i : Int) + d.1 + (t : Int) * d.1 = (i : Int) + ((t + 1 : Nat) : Int) * d.1 := by
        push_cast
        ring
      have e2 : (j : Int) + d.2 + (t : Int) * d.2 = (j : Int) + ((t + 1 : Nat) : Int) * d.2 := by
        push_cast
        ring
      rw [e1, e2] at hs
      exact hs
  · rintro ⟨d, hd, i, j, hrun⟩
    have h0 := cellAt_eq_some.mp (hrun 0 (by omega))
    simp only [Nat.cast_zero, zero_mul, add_zero] at h0
    obtain ⟨hi0, hi1, hj0, hj1, hcell⟩ := h0
    have hlast := cellAt_eq_some.mp (hrun (max b.win_len 2 - 1) (by omega))
    have hdir : (d.1 = 1 ∨ d.2 = 1) := by
      simp only [dirs, List.mem_cons, List.not_mem_nil, or_false] at hd
      rcases hd with rfl | rfl | rfl | rfl
      · exact Or.inl rfl
      · exact Or.inr rfl
      · exact Or.inl rfl
      · exact Or.inl rfl
    have hfuel : max (b.win_len - 1) 1 ≤ b.rows + b.cols := by
      obtain ⟨ha1, ha2, ha3, ha4, -⟩ := hlast
      rcases hdir with h1 | h1
      · rw [h1, mul_one] at ha2
        omega
      · rw [h1, mul_one] at ha4
        omega
    refine ⟨i.toNat, by omega, j.toNat, by omega, ?_, d, hd, ?_⟩
    · exact hcell
    · rw [extend_run_iff]
      refine ⟨hfuel, ?_⟩
      intro t ht
      have hs := cellAt_eq_some.mp (hrun (t + 1) (by omega))
      have e1 : i + ((t + 1 : Nat) : Int) * d.1 = ((i.toNat : Nat) : Int) + d.1 + (t : Int) * d.1 := by
        rw [Int.toNat_of_nonneg hi0]
        push_cast
        ring
      have e2 : j + ((t + 1 : Nat) : Int) * d.2 = ((j.toNat : Nat) : Int) + d.2 + (t : Int) * d.2 := by
        rw [Int.toNat_of_nonneg hj0]
        push_cast
        ring
      rw [e1, e2] at hs
      exact hs

/-! ## Concrete boards and games used to instantiate the theorems -/

/-- A 2×2 board, no obstacles, every cell open. -/
def bOpen : Board :=
  ⟨2, 2, 4, 0, [['.', '.'], ['.', '.']],
    {((0 : Int), (0 : Int)), (0, 1), (1, 0), (1, 1)}⟩

/-- A 1×1 board holding a single mark, `win_len = 1`. -/
def bOne : Board := ⟨1, 1, 1, 0, [['X']], ∅⟩

/-- A 1×2 board with a horizontal run of two marks, `win_len = 2`. -/
def bPair : Board := ⟨1, 2, 2, 0, [['X', 'X']], ∅⟩

/-- `bOpen` after `X` marks cell `(0, 0)`. -/
def bAfter : Board :=
  ⟨2, 2, 4, 0, [['X', '.'], ['.', '.']], {((0 : Int), (1 : Int)), (1, 0), (1, 1)}⟩

/-- A 1×1 board with its single cell open. -/
def bCell : Board := ⟨1, 1, 1, 0, [['.']], {((0 : Int), (0 : Int))}⟩

/-- A 2×2 board with one obstacle at `(0, 0)`, as produced by
`init_board 2 2 4 1 [(0, 0)]`. -/
def bObst : Board :=
  ⟨2, 2, 4, 1, [['#', '.'], ['.', '.']], {((0 : Int), (1 : Int)), (1, 0), (1, 1)}⟩

/-- A game in progress on `bOpen`, `X` to move. -/
def gPlay : Game := ⟨bOpen, ['X', 'O'], 0, false, none, 80, 5⟩

/-- A finished game (X won on the 1×1 board). -/
def gOver : Game := ⟨bOne, ['X', 'O'], 0, true, some 'X', 80, 5⟩

/-! ## Claim theorems -/

/-- C1 (amended): for every board and symbol, when `win_len ≥ 2`,
`check_winner(sym)` returns true iff there is an axis-aligned or diagonal
run of at least `win_len` consecutive cells holding `sym`; runs of
obstacles or of other symbols never count, since a run requires every
cell to equal `sym`.  (For `win_len = 1` the equivalence fails: the loop
only tests the count after extending, see the counterexample.) -/
theorem check_winner_iff_run_of_two_le (b : Board) (sym : Char) (h2 : 2 ≤ b.win_len) :
    b.check_winner sym = true ↔ has_run b sym b.win_len := by
  rw [check_winner_iff_run, Nat.max_eq_left h2]

/-- C1 witness: the equivalence instantiated on a concrete 1×2 board with
a run of two `X` cells and `win_len = 2`. -/
theorem check_winner_iff_run_of_two_le_witness :
    bPair.check_winner 'X' = true ↔ has_run bPair 'X' bPair.win_len :=
  check_winner_iff_run_of_two_le bPair 'X' (by decide)

/-- C1 counterexample: with `win_len = 1`, a lone `X` on a 1×1 board is a
run of length 1 ≥ win_len, yet `check_winner` returns false, because the
inner loop compares the count to `win_len` only after extending the run
by one cell. -/
theorem check_winner_single_cell_cex :
    ¬(bOne.check_winner 'X' = true ↔ has_run bOne 'X' bOne.win_len) := by
  intro h
  have hrun : has_run bOne 'X' bOne.win_len := by
    refine ⟨(1, 0), by decide, 0, 0, ?_⟩
    intro k hk
    have hwl : bOne.win_len = 1 := rfl
    have hk0 : k = 0 := by omega
    subst hk0
    decide
  exact absurd (h.mpr hrun) (by decide)

/-- C2 (amended): `Board.__init__` performs no parameter validation and
raises no `ConfigError`.  Whether a board is produced does not depend on
`win_len` at all (so `win_len < 1` is accepted), and when
`num_obstacles > rows*cols` the rejection-sampling loop can never finish
(no stream of in-range samples produces a board) — the game does not
start, but by non-termination, not by a reported error. -/
theorem init_board_no_validation (rows cols wl no : Nat) (stream : List (Nat × Nat))
    (hstream : ∀ q ∈ stream, q.1 < rows ∧ q.2 < cols) :
    ((Board.init_board rows cols wl no stream).isSome
      = (Board.init_board rows cols 0 no stream).isSome) ∧
    (rows * cols < no → Board.init_board rows cols wl no stream = none) := by
  constructor
  · unfold Board.init_board
    cases place_obstacles stream (initCells rows cols) no <;> rfl
  · intro hno
    cases hpo : Board.init_board rows cols wl no stream with
    | none => rfl
    | some b =>
      obtain ⟨-, -, -, -, -, hcount, -⟩ := init_board_spec hstream hpo
      have hle : count_cells rows cols b.cells (· = '#') ≤ rows * cols := by
        unfold count_cells
        calc ((Finset.range rows ×ˢ Finset.range cols).filter
              (fun q => (fun c => c = '#') (getCell b.cells q.1 q.2))).card
            ≤ (Finset.range rows ×ˢ Finset.range cols).card :=
              Finset.card_filter_le _ _
          _ = rows * cols := by
              rw [Finset.card_product, Finset.card_range, Finset.card_range]
      omega

/-- C2 witness: concrete instantiation of the no-validation theorem. -/
theorem init_board_no_validation_witness :
    ((Board.init_board 2 2 4 1 [(0, 0)]).isSome
      = (Board.init_board 2 2 0 1 [(0, 0)]).isSome) ∧
    (2 * 2 < 1 → Board.init_board 2 2 4 1 [(0, 0)] = none) :=
  init_board_no_validation 2 2 4 1 [(0, 0)] (by decide)

/-- C2 counterexample: with `win_len = 0 < 1` a board is produced, and
with `num_obstacles = rows*cols` (which the claim says must fail) a board
is also produced — construction never fails with a `ConfigError`. -/
theorem init_board_invalid_config_cex :
    (Board.init_board 2 2 0 1 [(0, 0)]).isSome = true ∧
    (Board.init_board 1 1 4 1 [(0, 0)]).isSome = true := by
  decide

/-- C3: on a well-formed board, if `(i, j)` is in the open-coordinate
set, `place_mark` writes the symbol into that cell, removes `(i, j)` from
the open set, leaves every other cell unchanged and returns success;
otherwise it returns failure and the whole state is unchanged. -/
theorem place_mark_spec (b : Board) (i j : Int) (sym : Char) (h : Inv b) :
    ((i, j) ∈ b.legal →
      b.place_mark i j sym =
        ({ b with cells := setCell b.cells i.toNat j.toNat sym,
                  legal := b.legal.erase (i, j) }, true) ∧
      getCell (b.place_mark i j sym).1.cells i.toNat j.toNat = sym ∧
      (i, j) ∉ (b.place_mark i j sym).1.legal ∧
      (∀ a c : Nat, a < b.rows → c < b.cols → ¬(a = i.toNat ∧ c = j.toNat) →
        getCell (b.place_mark i j sym).1.cells a c = getCell b.cells a c)) ∧
    ((i, j) ∉ b.legal → b.place_mark i j sym = (b, false)) := by
  constructor
  · intro hm
    obtain ⟨hi0, hi1, hj0, hj1, hdot⟩ := (h.mem_legal (i, j)).mp hm
    obtain ⟨hlen, hrows, -, -⟩ := h
    have hinat : i.toNat < b.rows := by omega
    have hjnat : j.toNat < b.cols := by omega
    refine ⟨place_mark_legal sym hm, ?_, ?_, ?_⟩
    · rw [place_mark_legal sym hm]
      exact getCell_setCell_self _ _ (by omega)
        (by rw [getD_row_length hlen hrows hinat]; omega)
    · rw [place_mark_legal sym hm]
      exact Finset.not_mem_erase _ _
    · intro a c ha hcc hne
      rw [place_mark_legal sym hm]
      refine getCell_setCell_ne _ _ ?_
      intro hcon
      rw [Prod.mk.injEq] at hcon
      exact hne ⟨hcon.1.symm, hcon.2.symm⟩
  · exact place_mark_illegal sym

/-- C3 witness: marking the open cell `(0, 1)` of the concrete 2×2 board
succeeds and produces exactly the updated grid and shrunken open set. -/
theorem place_mark_spec_witness :
    bOpen.place_mark 0 1 'X' =
      ({ bOpen with cells := setCell bOpen.cells (0 : Int).toNat (1 : Int).toNat 'X',
                    legal := bOpen.legal.erase (0, 1) }, true) :=
  ((place_mark_spec bOpen 0 1 'X' (by decide)).1 (by decide)).1

/-- C4: the board invariant holds after `init_board` (hence after every
`reset`, which re-runs it) and is preserved by `place_mark`; on every
well-formed board each in-bounds coordinate is in exactly one of the
three classes {open (in the legal set), obstacle, mark}, and the open-set
size equals `rows*cols` minus obstacles-plus-marks. -/
theorem board_invariant_preserved :
    (∀ rows cols wl no stream b, Board.init_board rows cols wl no stream = some b →
      (∀ q ∈ stream, q.1 < rows ∧ q.2 < cols) → Inv b) ∧
    (∀ (b b2 : Board) (stream : List (Nat × Nat)), Board.reset b stream = some b2 →
      (∀ q ∈ stream, q.1 < b.rows ∧ q.2 < b.cols) → Inv b2) ∧
    (∀ (b : Board) (i j : Int) (sym : Char), Inv b → sym ≠ '.' →
      Inv (b.place_mark i j sym).1) ∧
    (∀ b : Board, Inv b → ∀ a c : Nat, a < b.rows → c < b.cols →
      ((((a : Int), (c : Int)) ∈ b.legal ∧ ¬getCell b.cells a c = '#' ∧
          ¬(getCell b.cells a c ≠ '.' ∧ getCell b.cells a c ≠ '#')) ∨
       (((a : Int), (c : Int)) ∉ b.legal ∧ getCell b.cells a c = '#' ∧
          ¬(getCell b.cells a c ≠ '.' ∧ getCell b.cells a c ≠ '#')) ∨
       (((a : Int), (c : Int)) ∉ b.legal ∧ ¬getCell b.cells a c = '#' ∧
          (getCell b.cells a c ≠ '.' ∧ getCell b.cells a c ≠ '#')))) ∧
    (∀ b : Board, Inv b →
      b.legal.card = b.rows * b.cols - (count_cells b.rows b.cols b.cells (· = '#')
        + count_cells b.rows b.cols b.cells (fun c => c ≠ '.' ∧ c ≠ '#'))) := by
  refine ⟨?_, ?_, ?_, ?_, ?_⟩
  · intro rows cols wl no stream b hinit hstream
    exact (init_board_spec hstream hinit).2.2.2.2.1
  · intro b b2 stream hreset hstream
    rw [Board.reset] at hreset
    exact (init_board_spec hstream hreset).2.2.2.2.1
  · intro b i j sym h hsym
    exact Inv_place_mark h i j sym hsym
  · intro b h a c ha hc
    have hch : (((a : Int), (c : Int)) ∈ b.legal) ↔ getCell b.cells a c = '.' := by
      rw [h.mem_legal]
      dsimp only
      rw [Int.toNat_natCast, Int.toNat_natCast]
      constructor
      · rintro ⟨-, -, -, -, h5⟩
        exact h5
      · intro h5
        exact ⟨by positivity, by exact_mod_cast ha, by positivity, by exact_mod_cast hc, h5⟩
    by_cases hdot : getCell b.cells a c = '.'
    · refine Or.inl ⟨hch.mpr hdot, ?_, ?_⟩
      · rw [hdot]
        decide
      · rw [hdot]
        decide
    · by_cases hobs : getCell b.cells a c = '#'
      · refine Or.inr (Or.inl ⟨?_, hobs, ?_⟩)
        · intro hx
          exact hdot (hch.mp hx)
        · rw [hobs]
          decide
      · refine Or.inr (Or.inr ⟨?_, hobs, hdot, hobs⟩)
        intro hx
        exact hdot (hch.mp hx)
  · intro b h
    have := h.legal_card
    omega

/-- C4 witness: the invariant instantiated on the concrete 2×2 board,
its successor under a `place_mark`, and the open-set size equation. -/
theorem board_invariant_preserved_witness :
    Inv bOpen ∧ Inv (bOpen.place_mark 0 0 'X').1 ∧
    bOpen.legal.card = bOpen.rows * bOpen.cols -
      (count_cells bOpen.rows bOpen.cols bOpen.cells (· = '#')
        + count_cells bOpen.rows bOpen.cols bOpen.cells (fun c => c ≠ '.' ∧ c ≠ '#')) :=
  ⟨board_invariant_preserved.1 2 2 4 0 [] bOpen (by decide) (by decide),
   board_invariant_preserved.2.2.1 bOpen 0 0 'X' (by decide) (by decide),
   board_invariant_preserved.2.2.2.2 bOpen (by decide)⟩

/-- C5: for a valid configuration, whenever initialization (or a reset,
which is the same procedure with the stored parameters) completes on a
stream of in-range samples, exactly `num_obstacles` cells are obstacles,
every other cell is empty (there are no marks), and the open set has
exactly `rows*cols - num_obstacles` coordinates. -/
theorem init_board_layout (rows cols wl no : Nat) (stream : List (Nat × Nat)) (b : Board)
    (hno : no < rows * cols) (hwl : 1 ≤ wl)
    (hstream : ∀ q ∈ stream, q.1 < rows ∧ q.2 < cols)
    (hinit : Board.init_board rows cols wl no stream = some b) :
    count_cells rows cols b.cells (· = '#') = no ∧
    count_cells rows cols b.cells (fun c => c ≠ '.' ∧ c ≠ '#') = 0 ∧
    (∀ i j, i < rows → j < cols → getCell b.cells i j = '#' ∨ getCell b.cells i j = '.') ∧
    b.legal.card = rows * cols - no ∧
    (∀ b0 : Board, Board.reset b0
      = Board.init_board b0.rows b0.cols b0.win_len b0.num_obstacles) := by
  obtain ⟨hr, hc, -, -, hInv, hcount, hclass⟩ := init_board_spec hstream hinit
  have hmark : count_cells rows cols b.cells (fun c => c ≠ '.' ∧ c ≠ '#') = 0 := by
    unfold count_cells
    rw [Finset.card_eq_zero, Finset.filter_eq_empty_iff]
    intro q hq
    simp only [Finset.mem_product, Finset.mem_range] at hq
    rcases hclass q.1 q.2 hq.1 hq.2 with hx | hx
    · rw [hx]
      decide
    · rw [hx]
      decide
  have hcard := hInv.legal_card
  rw [hr, hc] at hcard
  exact ⟨hcount, hmark, hclass, by omega, fun b0 => rfl⟩

/-- C5 witness: a 2×2 board initialized with one obstacle at `(0, 0)`. -/
theorem init_board_layout_witness :
    count_cells 2 2 bObst.cells (· = '#') = 1 ∧
    count_cells 2 2 bObst.cells (fun c => c ≠ '.' ∧ c ≠ '#') = 0 ∧
    (∀ i j, i < 2 → j < 2 → getCell bObst.cells i j = '#' ∨ getCell bObst.cells i j = '.') ∧
    bObst.legal.card = 2 * 2 - 1 ∧
    (∀ b0 : Board, Board.reset b0
      = Board.init_board b0.rows b0.cols b0.win_len b0.num_obstacles) :=
  init_board_layout 2 2 4 1 [(0, 0)] bObst (by decide) (by decide) (by decide) (by decide)

theorem make_move_fst_of_failed {b : Board} {sym : Char} {pos : Int × Int}
    {q m : Int} (h : (HumanPlayer.make_move b sym pos q m).2 = false) :
    (HumanPlayer.make_move b sym pos q m).1 = b :=
  place_mark_fst_of_failed h

/-- C6: while a game is in progress, a click whose placement succeeds and
is non-terminal flips the active index exactly once (`1 - turn ≠ turn`),
a click whose placement fails leaves the whole controller state
unchanged, and a terminal placement (win or draw) freezes the game
without flipping the turn. -/
theorem turn_alternation (g : Game) (pos : Int × Int) (b2 : Board) (r : Bool)
    (hgo : g.game_over = false)
    (hmv : HumanPlayer.make_move g.board (g.players.getD g.turn 'X') pos
      g.cell_size g.margin = (b2, r)) :
    (r = false → g.handle_click pos = g) ∧
    (r = true →
      (b2.check_winner (g.players.getD g.turn 'X') = true →
        g.handle_click pos =
          { g with board := b2, game_over := true,
                   winner := some (g.players.getD g.turn 'X') }) ∧
      (b2.check_winner (g.players.getD g.turn 'X') = false → b2.is_full = true →
        g.handle_click pos = { g with board := b2, game_over := true, winner := none }) ∧
      (b2.check_winner (g.players.getD g.turn 'X') = false → b2.is_full = false →
        g.handle_click pos = { g with board := b2, turn := 1 - g.turn } ∧
        1 - g.turn ≠ g.turn)) := by
  obtain ⟨gb, gp, gt, ggo, gw, gcs, gm⟩ := g
  dsimp only at hgo hmv ⊢
  subst hgo
  constructor
  · intro hr
    subst hr
    have h1 : b2 = gb := by
      have h2 := make_move_fst_of_failed (by rw [hmv])
      rw [hmv] at h2
      exact h2
    subst h1
    simp only [Game.handle_click, hmv, Bool.false_eq_true, eq_self_iff_true, if_true, if_false]
  · intro hr
    subst hr
    refine ⟨?_, ?_, ?_⟩
    · intro hw
      simp only [Game.handle_click, hmv, hw, Bool.false_eq_true, eq_self_iff_true, if_true,
        if_false]
    · intro hw hf
      simp only [Game.handle_click, hmv, hw, hf, Bool.false_eq_true, eq_self_iff_true, if_true,
        if_false]
    · intro hw hf
      refine ⟨?_, by omega⟩
      simp only [Game.handle_click, hmv, hw, hf, Bool.false_eq_true, eq_self_iff_true, if_true,
        if_false]

/-- C6 witness: on the in-progress 2×2 game, the click at pixel `(6, 6)`
lands on the open cell `(0, 0)`, is non-terminal, and flips the turn. -/
theorem turn_alternation_witness :
    gPlay.handle_click (6, 6) = { gPlay with board := bAfter, turn := 1 - gPlay.turn } ∧
    1 - gPlay.turn ≠ gPlay.turn :=
  ((turn_alternation gPlay (6, 6) bAfter true rfl (by decide)).2 rfl).2.2
    (by decide) (by decide)

/-- C7: a restart while the game is over resets the board through the
initialization procedure (freshly sampled obstacle layout with the stored
configuration), sets the active index to 0, clears the winner and puts
the game back in progress; a restart while the game is in progress is
ignored and changes nothing. -/
theorem restart_policy (g : Game) (stream : List (Nat × Nat)) (b2 : Board)
    (hreset : g.board.reset stream = some b2) :
    (g.game_over = false → g.handle_restart stream = some g) ∧
    (g.game_over = true →
      g.handle_restart stream =
        some { g with board := b2, turn := 0, game_over := false, winner := none } ∧
      ((∀ q ∈ stream, q.1 < g.board.rows ∧ q.2 < g.board.cols) →
        Inv b2 ∧ count_cells b2.rows b2.cols b2.cells (· = '#') = g.board.num_obstacles ∧
        b2.rows = g.board.rows ∧ b2.cols = g.board.cols ∧
        b2.win_len = g.board.win_len ∧ b2.num_obstacles = g.board.num_obstacles)) := by
  constructor
  · intro hgo
    simp only [Game.handle_restart, hgo, Bool.false_eq_true, if_false]
  · intro hgo
    constructor
    · simp only [Game.handle_restart, hgo, if_true, hreset, Option.map_some']
    · intro hstream
      rw [Board.reset] at hreset
      obtain ⟨h1, h2, h3, h4, h5, h6, -⟩ := init_board_spec hstream hreset
      refine ⟨h5, ?_, h1, h2, h3, h4⟩
      rw [h1, h2]
      exact h6

/-- C7 witness: restarting the finished 1×1 game rebuilds the board and
re-enters the in-progress state with player 0 active. -/
theorem restart_policy_witness :
    gOver.handle_restart [] =
      some { gOver with board := bCell, turn := 0, game_over := false, winner := none } :=
  ((restart_policy gOver [] bCell (by decide)).2 rfl).1

/-- C8: `is_legal_move` returns true iff the coordinate is within the
grid bounds and in the open-coordinate set; any out-of-bounds query,
including negative indices, returns false (the set only contains
in-bounds coordinates). -/
theorem is_legal_move_spec (b : Board) (i j : Int) (h : Inv b) :
    (b.is_legal_move i j = true ↔
      (0 ≤ i ∧ i < (b.rows : Int) ∧ 0 ≤ j ∧ j < (b.cols : Int) ∧ (i, j) ∈ b.legal)) ∧
    (i < 0 ∨ (b.rows : Int) ≤ i ∨ j < 0 ∨ (b.cols : Int) ≤ j →
      b.is_legal_move i j = false) := by
  have hiff : b.is_legal_move i j = true ↔
      (0 ≤ i ∧ i < (b.rows : Int) ∧ 0 ≤ j ∧ j < (b.cols : Int) ∧ (i, j) ∈ b.legal) := by
    unfold Board.is_legal_move
    simp only [decide_eq_true_eq]
    constructor
    · intro hm
      have hb := mem_boundsSet.mp (h.2.2.1 hm)
      exact ⟨hb.1, hb.2.1, hb.2.2.1, hb.2.2.2, hm⟩
    · exact fun hx => hx.2.2.2.2
  refine ⟨hiff, ?_⟩
  intro hout
  cases hlm : b.is_legal_move i j with
  | false => rfl
  | true =>
    obtain ⟨h1, h2, h3, h4, -⟩ := hiff.mp hlm
    omega

/-- C8 witness: a negative index on the concrete board is rejected. -/
theorem is_legal_move_spec_witness :
    bOpen.is_legal_move (-1) 0 = false :=
  (is_legal_move_spec bOpen (-1) 0 (by decide)).2 (by decide)

/-- C9 (amended): `HumanPlayer.make_move` converts the pointer position
with `index = floor((coordinate - margin) / (cell_size + margin))` —
column from x, row from y — but it does not merely produce the pair: it
immediately applies it through `Board.place_mark` (mutating the board on
success) and returns the success flag; when the computed index falls
outside the grid the move fails and the board is unchanged, there is no
separate "none" result. -/
theorem make_move_formula (b : Board) (sym : Char) (pos : Int × Int) (q m : Int)
    (h : Inv b) :
    HumanPlayer.make_move b sym pos q m =
      b.place_mark (Int.fdiv (pos.2 - m) (q + m)) (Int.fdiv (pos.1 - m) (q + m)) sym ∧
    (¬(0 ≤ Int.fdiv (pos.2 - m) (q + m) ∧
        Int.fdiv (pos.2 - m) (q + m) < (b.rows : Int) ∧
        0 ≤ Int.fdiv (pos.1 - m) (q + m) ∧
        Int.fdiv (pos.1 - m) (q + m) < (b.cols : Int)) →
      HumanPlayer.make_move b sym pos q m = (b, false)) := by
  constructor
  · rfl
  · intro hout
    apply place_mark_illegal
    intro hm
    have hb := mem_boundsSet.mp (h.2.2.1 hm)
    dsimp only at hb
    exact hout ⟨hb.1, hb.2.1, hb.2.2.1, hb.2.2.2⟩

/-- C9 witness: a click beyond the right edge of the concrete 2×2 board
maps to row index 2, which is out of grid, so the move fails with the
board unchanged. -/
theorem make_move_formula_witness :
    HumanPlayer.make_move bOpen 'X' (200, 200) 80 5 = (bOpen, false) :=
  (make_move_formula bOpen 'X' (200, 200) 80 5 (by decide)).2 (by decide)

/-- C9 counterexample: `make_move` does not leave the application of the
move to its caller — on a successful click it returns a mutated board
itself, refuting the claim that `produceMove` never mutates the board. -/
theorem make_move_mutates_cex :
    (HumanPlayer.make_move bCell 'X' (6, 6) 80 5).1 ≠ bCell := by
  decide

/-- C10: for every pixel position whose floor-divided indices fall
outside the grid — including clicks in the top/left margin, which give
negative indices — the human move handler returns failure with the board
unchanged: `place_mark` tests membership in the open set (which contains
only in-bounds coordinates) before any grid access. -/
theorem out_of_grid_click_noop (b : Board) (sym : Char) (pos : Int × Int) (q m : Int)
    (h : Inv b)
    (hout : ¬(0 ≤ Int.fdiv (pos.2 - m) (q + m) ∧
        Int.fdiv (pos.2 - m) (q + m) < (b.rows : Int) ∧
        0 ≤ Int.fdiv (pos.1 - m) (q + m) ∧
        Int.fdiv (pos.1 - m) (q + m) < (b.cols : Int))) :
    HumanPlayer.make_move b sym pos q m = (b, false) := by
  apply place_mark_illegal
  intro hm
  have hb := mem_boundsSet.mp (h.2.2.1 hm)
  dsimp only at hb
  exact hout ⟨hb.1, hb.2.1, hb.2.2.1, hb.2.2.2⟩

/-- C10 witness: a click at pixel `(0, 0)` lands in the margin, floor
division gives index `-1`, and the move is a no-op. -/
theorem out_of_grid_click_noop_witness :
    HumanPlayer.make_move bOpen 'X' (0, 0) 80 5 = (bOpen, false) :=
  out_of_grid_click_noop bOpen 'X' (0, 0) 80 5 (by decide) (by decide)

end TTT
